import Mathlib

/-!
Verification of the scene-asset generation and video-assembly pipeline of the
safety-training-video repository.

The definitions below are a shallow embedding of the TypeScript source:
* `src/app/api/assemble-video/route.ts` — caption segmentation and timing,
  per-scene segment rendering with the no-captions fallback, the request
  handler's content-length check, temp-directory lifecycle and validation;
* `src/lib/schemas.ts` — the zod request schema for the assemble endpoint;
* `src/lib/constants.ts` — numeric limits;
* `src/lib/retry.ts` (shipped alongside `retry.test.ts`) — `withRetry`;
* `src/lib/timeout.ts` — `withTimeout`;
* `src/app/hooks/useVideoGeneration.ts` — `runWithConcurrency` and
  `regenerateScene`.

Text is modelled as `List Char`; machine floats are modelled as `ℚ` (the
timing arithmetic in the source is exact in the rational model); promises and
the event loop are modelled by explicit outcome values and explicit
interleaving orders.
-/

namespace STV

/-! ## Constants (src/lib/constants.ts) -/

/-- `MAX_SCENES` — max scenes in a single video (assemble-video). -/
def MAX_SCENES : Nat := 10

/-- `MAX_ASSEMBLE_BODY_BYTES` — max request body size for assemble-video, 50 MB. -/
def MAX_ASSEMBLE_BODY_BYTES : Nat := 50 * 1024 * 1024

/-- `MIN_SCENE_DURATION` — min scene duration in seconds (assemble-video). -/
def MIN_SCENE_DURATION : ℚ := 3

/-- `MAX_CAPTION_LENGTH` — max caption length for burn-in text (chars). -/
def MAX_CAPTION_LENGTH : Nat := 120

/-- `maxCharsPerSegment` (route.ts line 177) — max chars per caption segment. -/
def maxCharsPerSegment : Nat := 45

/-! ## Character classes and basic string operations

JavaScript string primitives used by the route, modelled on `List Char`. -/

/-- The JavaScript `\s` class, restricted to the ASCII whitespace characters
(space, tab, line feed, carriage return, vertical tab, form feed). -/
def jsSpace (c : Char) : Bool :=
  c == ' ' || c == '\t' || c == '\n' || c == '\r' || c == '\x0b' || c == '\x0c'

/-- Sentence-ending punctuation of the split regex `(?<=[.!?])\s+`. -/
def sentenceEnd (c : Char) : Bool :=
  c == '.' || c == '!' || c == '?'

/-- JavaScript `String.prototype.trim`, over the `jsSpace` class. -/
def trimJs (cs : List Char) : List Char :=
  (((cs.dropWhile jsSpace).reverse).dropWhile jsSpace).reverse

/-- Worker for `collapseWs`. `inWs` records whether the previous input
character was whitespace (so the current run has already emitted its space). -/
def collapseWsGo (inWs : Bool) : List Char → List Char
  | [] => []
  | c :: rest =>
    if jsSpace c then
      if inWs then collapseWsGo true rest
      else ' ' :: collapseWsGo true rest
    else c :: collapseWsGo false rest

/-- JavaScript `.replace(/\s+/g, ' ')`: each maximal whitespace run becomes
one space. -/
def collapseWs (cs : List Char) : List Char :=
  collapseWsGo false cs

/-- The caption sanitization of route.ts lines 115–123:
`String(narration).trim().replace(/\s+/g, ' ').replace(/\0/g, '').slice(0, MAX_CAPTION_LENGTH)`. -/
def sanitizeCaption (narration : List Char) : List Char :=
  ((collapseWs (trimJs narration)).filter (fun c => c != '\x00')).take MAX_CAPTION_LENGTH

/-! ## Sentence splitting (route.ts line 181)

`captionForScene.split(/(?<=[.!?])\s+/)`: the separator is a maximal
whitespace run immediately preceded by `.`, `!` or `?`; the punctuation stays
with the preceding piece.  `sentSplitGo` is a structural scan: `cur` is the
current piece (reversed), `inSep` records that we are inside a separator
whitespace run. -/

def sentSplitGo (inSep : Bool) (cur : List Char) : List Char → List (List Char)
  | [] => [cur.reverse]
  | c :: rest =>
    if inSep && jsSpace c then sentSplitGo true cur rest
    else
      match cur with
      | p :: _ =>
        if sentenceEnd p && jsSpace c then
          cur.reverse :: sentSplitGo true [] rest
        else sentSplitGo false (c :: cur) rest
      | [] => sentSplitGo false [c] rest

/-- `text.split(/(?<=[.!?])\s+/)` from route.ts line 181. -/
def sentSplit (cs : List Char) : List (List Char) :=
  sentSplitGo false [] cs

/-- `sentences = text.split(...).filter(s => s.trim().length > 0)`. -/
def sentencesOf (text : List Char) : List (List Char) :=
  (sentSplit text).filter (fun s => (trimJs s).length > 0)

/-! ## Word splitting and greedy packing (route.ts lines 188–218) -/

/-- Worker for `splitOnSpaceChar`; `cur` is the current piece reversed. -/
def splitOnSpaceGo (cur : List Char) : List Char → List (List Char)
  | [] => [cur.reverse]
  | c :: rest =>
    if c == ' ' then cur.reverse :: splitOnSpaceGo [] rest
    else splitOnSpaceGo (c :: cur) rest

/-- JavaScript `s.split(' ')` (single-character separator, empty pieces kept). -/
def splitOnSpaceChar (cs : List Char) : List (List Char) :=
  splitOnSpaceGo [] cs

/-- One iteration of the greedy word-packing loop (route.ts lines 192–199):
state is (chunks pushed so far, currentChunk). -/
def packStep (maxC : Nat) (st : List (List Char) × List Char) (word : List Char) :
    List (List Char) × List Char :=
  if st.2.length + word.length + 1 ≤ maxC then
    (st.1, if st.2 = [] then word else st.2 ++ ' ' :: word)
  else
    (if st.2 = [] then st.1 else st.1 ++ [trimJs st.2], word)

/-- Greedy word packing of route.ts lines 189–200 (also 206–217): pack
whitespace-delimited words into chunks of at most `maxC` characters; the
trailing non-empty chunk is flushed after the loop. -/
def packWords (maxC : Nat) (words : List (List Char)) : List (List Char) :=
  let st := words.foldl (packStep maxC) ([], [])
  if st.2 = [] then st.1 else st.1 ++ [trimJs st.2]

/-- One iteration of the per-sentence loop of route.ts lines 184–202: a
sentence that fits is kept whole (trimmed); a longer sentence is greedily
word-packed, the chunks appended to the shared `segments` array. -/
def sentenceStep (maxC : Nat) (acc : List (List Char)) (s : List Char) : List (List Char) :=
  if s.length ≤ maxC then acc ++ [trimJs s]
  else acc ++ packWords maxC (splitOnSpaceChar s)

/-- The per-sentence loop of route.ts lines 184–202 over the shared
`segments` array (initially empty). -/
def segmentsOfSentences (maxC : Nat) (sentences : List (List Char)) : List (List Char) :=
  sentences.foldl (sentenceStep maxC) []

/-- The full caption segmentation of route.ts lines 176–218: split into
sentences, keep/pack each, and if no segment was produced (no sentence
boundary), greedily word-pack the whole text. -/
def segmentsOf (maxC : Nat) (text : List Char) : List (List Char) :=
  let segs := segmentsOfSentences maxC (sentencesOf text)
  if segs = [] then packWords maxC (splitOnSpaceChar text) else segs

/-! ## Word counts and segment timings (route.ts lines 220–237) -/

/-- `s.split(' ').length` (route.ts line 222). -/
def wordCount (s : List Char) : Nat :=
  (splitOnSpaceChar s).length

/-- `Math.max(durationSeconds, MIN_SCENE_DURATION)` (route.ts line 155). -/
def effectiveDurationQ (d : ℚ) : ℚ :=
  max d MIN_SCENE_DURATION

/-- The timing loop of route.ts lines 226–237: each segment's duration is
`eff * (w / total)`, its start is the running time, its end is start plus
duration. -/
def timingsGo (eff total : ℚ) (t : ℚ) : List Nat → List (ℚ × ℚ)
  | [] => []
  | w :: rest =>
    let d := eff * ((w : ℚ) / total)
    (t, t + d) :: timingsGo eff total (t + d) rest

/-- `segmentTimings` of route.ts lines 220–237: word counts, their total, and
the proportional start/end times from time 0. -/
def segmentTimings (eff : ℚ) (wcs : List Nat) : List (ℚ × ℚ) :=
  timingsGo eff ((wcs.sum : Nat) : ℚ) 0 wcs

/-! ## Lemmas about the segmenter and the timing loop -/

theorem splitOnSpaceGo_length_pos (cs : List Char) :
    ∀ cur, 1 ≤ (splitOnSpaceGo cur cs).length := by
  induction cs with
  | nil => intro cur; simp [splitOnSpaceGo]
  | cons c rest ih =>
    intro cur
    by_cases h : c == ' '
    · simp [splitOnSpaceGo, h]
    · simpa [splitOnSpaceGo, h] using ih (c :: cur)

/-- Every caption segment has at least one word: JavaScript `s.split(' ')`
always returns a non-empty array. -/
theorem wordCount_pos (s : List Char) : 1 ≤ wordCount s :=
  splitOnSpaceGo_length_pos s []

theorem wordCounts_sum_pos {segs : List (List Char)} (h : segs ≠ []) :
    1 ≤ (segs.map wordCount).sum := by
  cases segs with
  | nil => exact absurd rfl h
  | cons s rest =>
    have := wordCount_pos s
    simp only [List.map_cons, List.sum_cons]
    omega

theorem timingsGo_length (eff W : ℚ) (wcs : List Nat) :
    ∀ t, (timingsGo eff W t wcs).length = wcs.length := by
  induction wcs with
  | nil => intro t; simp [timingsGo]
  | cons w rest ih => intro t; simp [timingsGo, ih]

theorem timingsGo_first (eff W t : ℚ) (w : Nat) (rest : List Nat) :
    ((timingsGo eff W t (w :: rest)).getD 0 (0, 0)).1 = t := by
  simp [timingsGo]

theorem timingsGo_chain (eff W : ℚ) (wcs : List Nat) :
    ∀ t i, i + 1 < wcs.length →
      ((timingsGo eff W t wcs).getD (i + 1) (0, 0)).1 =
        ((timingsGo eff W t wcs).getD i (0, 0)).2 := by
  induction wcs with
  | nil => intro t i h; simp at h
  | cons w rest ih =>
    intro t i h
    match i with
    | 0 =>
      cases rest with
      | nil => simp at h
      | cons w2 r2 => simp [timingsGo]
    | i + 1 =>
      have h2 : i + 1 < rest.length := by simpa using h
      simpa [timingsGo] using ih (t + eff * ((w : ℚ) / W)) i h2

theorem timingsGo_dur (eff W : ℚ) (wcs : List Nat) :
    ∀ t i, i < wcs.length →
      ((timingsGo eff W t wcs).getD i (0, 0)).2 =
        ((timingsGo eff W t wcs).getD i (0, 0)).1 + eff * ((wcs.getD i 0 : ℚ) / W) := by
  induction wcs with
  | nil => intro t i h; simp at h
  | cons w rest ih =>
    intro t i h
    match i with
    | 0 => simp [timingsGo]
    | i + 1 =>
      have h2 : i < rest.length := by simpa using h
      simpa [timingsGo] using ih (t + eff * ((w : ℚ) / W)) i h2

theorem timingsGo_sum_dur (eff W : ℚ) (wcs : List Nat) :
    ∀ t, ((timingsGo eff W t wcs).map (fun p => p.2 - p.1)).sum =
      eff * ((wcs.sum : ℚ) / W) := by
  induction wcs with
  | nil => intro t; simp [timingsGo]
  | cons w rest ih =>
    intro t
    simp only [timingsGo, List.map_cons, List.sum_cons, ih]
    push_cast
    ring

theorem timingsGo_last (eff W : ℚ) (wcs : List Nat) :
    ∀ t, wcs ≠ [] →
      ((timingsGo eff W t wcs).getD (wcs.length - 1) (0, 0)).2 =
        t + eff * ((wcs.sum : ℚ) / W) := by
  induction wcs with
  | nil => intro t h; exact absurd rfl h
  | cons w rest ih =>
    intro t _
    cases rest with
    | nil => simp [timingsGo]
    | cons w2 r2 =>
      have h2 := ih (t + eff * ((w : ℚ) / W)) (by simp)
      simp only [List.length_cons, Nat.add_sub_cancel] at h2 ⊢
      calc ((timingsGo eff W t (w :: w2 :: r2)).getD (w2 :: r2).length (0, 0)).2
          = ((timingsGo eff W (t + eff * ((w : ℚ) / W)) (w2 :: r2)).getD
              ((w2 :: r2).length - 1) (0, 0)).2 := by
            simp [timingsGo]
        _ = t + eff * ((w : ℚ) / W) + eff * (((w2 :: r2).sum : ℚ) / W) := h2
        _ = t + eff * (((w :: w2 :: r2).sum : ℚ) / W) := by
            simp only [List.sum_cons]
            push_cast
            ring

/-- C1: for every scene whose caption segmentation yields a non-empty segment
list, the computed segment timings partition the scene: the timing list is in
bijection with the segment list, the first start is 0, each start equals the
previous end, each segment's duration is `effectiveDuration × (words/total)`,
the durations sum exactly to the effective duration (equivalently the last end
equals it), every segment has `start ≤ end`, and a segment with twice the word
count of a sibling receives twice the duration. -/
theorem caption_timings_partition (narration : List Char) (d : ℚ)
    (segs : List (List Char)) (wcs : List Nat) (T : List (ℚ × ℚ))
    (_hsegs : segs = segmentsOf maxCharsPerSegment (sanitizeCaption narration))
    (hne : segs ≠ [])
    (hwcs : wcs = segs.map wordCount)
    (hT : T = segmentTimings (effectiveDurationQ d) wcs) :
    T.length = segs.length ∧
    (T.getD 0 (0, 0)).1 = 0 ∧
    (∀ i, i + 1 < T.length → (T.getD (i + 1) (0, 0)).1 = (T.getD i (0, 0)).2) ∧
    (∀ i, i < T.length →
      (T.getD i (0, 0)).2 =
        (T.getD i (0, 0)).1 +
          effectiveDurationQ d * ((wcs.getD i 0 : ℚ) / (wcs.sum : ℚ))) ∧
    (T.map (fun p => p.2 - p.1)).sum = effectiveDurationQ d ∧
    (T.getD (T.length - 1) (0, 0)).2 = effectiveDurationQ d ∧
    (∀ i, i < T.length → (T.getD i (0, 0)).1 ≤ (T.getD i (0, 0)).2) ∧
    (∀ i j, i < T.length → j < T.length → wcs.getD i 0 = 2 * wcs.getD j 0 →
      (T.getD i (0, 0)).2 - (T.getD i (0, 0)).1 =
        2 * ((T.getD j (0, 0)).2 - (T.getD j (0, 0)).1)) := by
  have hwne : wcs ≠ [] := by
    rw [hwcs]
    simpa using hne
  have hsum : 1 ≤ wcs.sum := by
    rw [hwcs]
    exact wordCounts_sum_pos hne
  have hWpos : (0 : ℚ) < (wcs.sum : ℚ) := by exact_mod_cast hsum
  have hW0 : ((wcs.sum : ℚ)) ≠ 0 := ne_of_gt hWpos
  have heff : (0 : ℚ) ≤ effectiveDurationQ d := by
    have h3 : (3 : ℚ) ≤ effectiveDurationQ d := le_max_right d 3
    linarith
  have hlen : T.length = wcs.length := by
    rw [hT]
    exact timingsGo_length _ _ _ _
  have hlen2 : T.length = segs.length := by
    rw [hlen, hwcs, List.length_map]
  have hdur : ∀ i, i < T.length →
      (T.getD i (0, 0)).2 =
        (T.getD i (0, 0)).1 +
          effectiveDurationQ d * ((wcs.getD i 0 : ℚ) / (wcs.sum : ℚ)) := by
    intro i hi
    rw [hT]
    exact timingsGo_dur _ _ wcs 0 i (by omega)
  refine ⟨hlen2, ?_, ?_, hdur, ?_, ?_, ?_, ?_⟩
  · cases wcs with
    | nil => exact absurd rfl hwne
    | cons w rest =>
      rw [hT]
      exact timingsGo_first _ _ _ _ _
  · intro i hi
    rw [hT]
    exact timingsGo_chain _ _ wcs 0 i (by omega)
  · rw [hT, segmentTimings, timingsGo_sum_dur, div_self hW0, mul_one]
  · rw [hlen, hT, segmentTimings,
      timingsGo_last (effectiveDurationQ d) ((wcs.sum : ℚ)) wcs 0 hwne,
      div_self hW0, mul_one, zero_add]
  · intro i hi
    have h := hdur i hi
    have hnn : (0 : ℚ) ≤ effectiveDurationQ d * ((wcs.getD i 0 : ℚ) / (wcs.sum : ℚ)) := by
      apply mul_nonneg heff
      apply div_nonneg (by positivity) (le_of_lt hWpos)
    linarith [h]
  · intro i j hi hj hij
    have h1 := hdur i hi
    have h2 := hdur j hj
    have hcast : (((wcs.getD i 0 : ℕ)) : ℚ) = 2 * (((wcs.getD j 0 : ℕ)) : ℚ) := by
      exact_mod_cast hij
    rw [h1, h2, hcast]
    ring

/-- Witness for `caption_timings_partition`: the spec scenario "Check the
horn." over a 6-second scene; the single segment's duration sums to the full
6 seconds. -/
theorem caption_timings_partition_witness :
    ((segmentTimings (effectiveDurationQ 6)
        ((segmentsOf maxCharsPerSegment
          (sanitizeCaption ("Check the horn.".toList))).map wordCount)).map
      (fun p => p.2 - p.1)).sum = effectiveDurationQ 6 :=
  (caption_timings_partition ("Check the horn.".toList) 6 _ _ _ rfl (by decide)
    rfl rfl).2.2.2.2.1

/-- The narration of the C3 scenario. -/
def c3Narration : List Char :=
  "Check the horn. Then look left and right before moving.".toList

theorem c3_segments :
    segmentsOf maxCharsPerSegment (sanitizeCaption c3Narration) =
      ["Check the horn.".toList, "Then look left and right before moving.".toList] := by
  decide

theorem c3_word_counts :
    (segmentsOf maxCharsPerSegment (sanitizeCaption c3Narration)).map wordCount = [3, 7] := by
  rw [c3_segments]
  decide

theorem effectiveDurationQ_nine : effectiveDurationQ 9 = 9 := by
  rw [effectiveDurationQ, MIN_SCENE_DURATION]
  exact max_eq_left (by norm_num)

theorem c3_timings_eval :
    segmentTimings (effectiveDurationQ 9)
        ((segmentsOf maxCharsPerSegment (sanitizeCaption c3Narration)).map wordCount) =
      [(0, 27 / 10), (27 / 10, 9)] := by
  rw [c3_word_counts, effectiveDurationQ_nine]
  simp only [segmentTimings, timingsGo, List.sum_cons, List.sum_nil]
  norm_num

/-- C3 amended: the narration splits into the two sentences with word counts
3 and 7 (the spec miscounts the second sentence as 6 words), so the timings
over the 9-second scene are `[0, 2.7)` and `[2.7, 9)`, with the boundary at
2.7 s rather than the claimed 3.0 s. -/
theorem c3_actual_timings :
    (segmentsOf maxCharsPerSegment (sanitizeCaption c3Narration)).map wordCount = [3, 7] ∧
    segmentTimings (effectiveDurationQ 9)
        ((segmentsOf maxCharsPerSegment (sanitizeCaption c3Narration)).map wordCount) =
      [(0, 27 / 10), (27 / 10, 9)] :=
  ⟨c3_word_counts, c3_timings_eval⟩

/-- C3 counterexample: the claimed timings `[0,3)`, `[3,9)` are not what the
code computes for this narration over a 9-second scene (the second sentence
has 7 words, not 6, so the split point is 2.7 s, not 3.0 s). -/
theorem c3_claimed_timings_false :
    segmentTimings (effectiveDurationQ 9)
        ((segmentsOf maxCharsPerSegment (sanitizeCaption c3Narration)).map wordCount) ≠
      [(0, 3), (3, 9)] := by
  rw [c3_timings_eval]
  intro h
  have h1 : ((27 : ℚ) / 10) = 3 := congrArg (fun l => (l.getD 0 (0, 0)).2) h
  norm_num at h1

/-- C4 counterexample: a narration that is one 46-character word yields a
single segment of 46 characters, exceeding `maxCharsPerSegment = 45` — the
greedy packer never splits inside a word. -/
theorem caption_segment_length_bound_false :
    ¬ (∀ s ∈ segmentsOf maxCharsPerSegment (sanitizeCaption (List.replicate 46 'a')),
        s.length ≤ maxCharsPerSegment) := by decide

/-! ## The caption-segment length invariant (C4 amended)

A pushed chunk either fits in `maxC` characters or is a single
space-free word (the packer never splits inside a word). -/

/-- The invariant carried by every produced segment. -/
def fitsOrWord (maxC : Nat) (s : List Char) : Prop :=
  s.length ≤ maxC ∨ ' ' ∉ s

theorem trimJs_sublist (s : List Char) : (trimJs s).Sublist s := by
  have h1 : ((((s.dropWhile jsSpace).reverse).dropWhile jsSpace)).Sublist
      ((s.dropWhile jsSpace).reverse) := List.dropWhile_sublist _
  have h2 : ((((s.dropWhile jsSpace).reverse).dropWhile jsSpace).reverse).Sublist
      (s.dropWhile jsSpace) := by
    have := h1.reverse
    simpa using this
  exact h2.trans (List.dropWhile_sublist _)

theorem trimJs_length_le (s : List Char) : (trimJs s).length ≤ s.length :=
  (trimJs_sublist s).length_le

theorem not_mem_trimJs {c : Char} {s : List Char} (h : c ∉ s) : c ∉ trimJs s :=
  fun hc => h ((trimJs_sublist s).subset hc)

theorem fitsOrWord_trimJs {maxC : Nat} {s : List Char} (h : fitsOrWord maxC s) :
    fitsOrWord maxC (trimJs s) := by
  rcases h with h | h
  · exact Or.inl (le_trans (trimJs_length_le s) h)
  · exact Or.inr (not_mem_trimJs h)

theorem splitOnSpaceGo_no_space (cs : List Char) :
    ∀ cur, ' ' ∉ cur → ∀ w ∈ splitOnSpaceGo cur cs, ' ' ∉ w := by
  induction cs with
  | nil =>
    intro cur hcur w hw
    simp only [splitOnSpaceGo, List.mem_singleton] at hw
    subst hw
    simpa using hcur
  | cons c rest ih =>
    intro cur hcur w hw
    by_cases h : c == ' '
    · simp only [splitOnSpaceGo, h, if_pos] at hw
      rcases List.mem_cons.1 hw with rfl | hw2
      · simpa using hcur
      · exact ih [] (by simp) w hw2
    · simp only [splitOnSpaceGo, h] at hw
      refine ih (c :: cur) ?_ w ?_
      · intro hmem
        rcases List.mem_cons.1 hmem with rfl | hmem2
        · simp at h
        · exact hcur hmem2
      · simpa using hw

/-- Every piece of `s.split(' ')` contains no space. -/
theorem splitOnSpaceChar_no_space (s : List Char) :
    ∀ w ∈ splitOnSpaceChar s, ' ' ∉ w :=
  splitOnSpaceGo_no_space s [] (by simp)

theorem packStep_invariant (maxC : Nat) (acc : List (List Char)) (chunk word : List Char)
    (hacc : ∀ x ∈ acc, fitsOrWord maxC x) (hchunk : fitsOrWord maxC chunk)
    (hword : ' ' ∉ word) :
    (∀ x ∈ (packStep maxC (acc, chunk) word).1, fitsOrWord maxC x) ∧
      fitsOrWord maxC (packStep maxC (acc, chunk) word).2 := by
  rw [packStep]
  by_cases hle : chunk.length + word.length + 1 ≤ maxC
  · rw [if_pos hle]
    refine ⟨hacc, ?_⟩
    by_cases hnil : chunk = []
    · rw [if_pos hnil]
      exact Or.inr hword
    · rw [if_neg hnil]
      refine Or.inl ?_
      simp only [List.length_append, List.length_cons]
      omega
  · rw [if_neg hle]
    by_cases hnil : chunk = []
    · rw [if_pos hnil]
      exact ⟨hacc, Or.inr hword⟩
    · rw [if_neg hnil]
      refine ⟨?_, Or.inr hword⟩
      intro x hx
      rcases List.mem_append.1 hx with hx1 | hx2
      · exact hacc x hx1
      · rcases List.mem_singleton.1 hx2 with rfl
        exact fitsOrWord_trimJs hchunk

theorem packFoldl_invariant (maxC : Nat) (words : List (List Char)) :
    ∀ acc chunk, (∀ w ∈ words, ' ' ∉ w) → (∀ x ∈ acc, fitsOrWord maxC x) →
      fitsOrWord maxC chunk →
      (∀ x ∈ (words.foldl (packStep maxC) (acc, chunk)).1, fitsOrWord maxC x) ∧
        fitsOrWord maxC (words.foldl (packStep maxC) (acc, chunk)).2 := by
  induction words with
  | nil => intro acc chunk _ hacc hchunk; exact ⟨hacc, hchunk⟩
  | cons w rest ih =>
    intro acc chunk hws hacc hchunk
    have hw : ' ' ∉ w := hws w (List.mem_cons_self w rest)
    have hstep := packStep_invariant maxC acc chunk w hacc hchunk hw
    simp only [List.foldl_cons]
    have := ih (packStep maxC (acc, chunk) w).1 (packStep maxC (acc, chunk) w).2
      (fun x hx => hws x (List.mem_cons_of_mem w hx)) hstep.1 hstep.2
    simpa using this

/-- Every chunk produced by the greedy word packer over space-free words
either fits in `maxC` characters or is a single space-free word. -/
theorem packWords_invariant (maxC : Nat) (words : List (List Char))
    (hws : ∀ w ∈ words, ' ' ∉ w) :
    ∀ x ∈ packWords maxC words, fitsOrWord maxC x := by
  intro x hx
  rw [packWords] at hx
  have h := packFoldl_invariant maxC words [] [] hws (by simp) (Or.inl (by simp))
  by_cases hnil : (words.foldl (packStep maxC) ([], [])).2 = []
  · rw [if_pos hnil] at hx
    exact h.1 x hx
  · rw [if_neg hnil] at hx
    rcases List.mem_append.1 hx with hx1 | hx2
    · exact h.1 x hx1
    · rcases List.mem_singleton.1 hx2 with rfl
      exact fitsOrWord_trimJs h.2

theorem sentenceStep_invariant (maxC : Nat) (acc : List (List Char)) (sen : List Char)
    (hacc : ∀ x ∈ acc, fitsOrWord maxC x) :
    ∀ x ∈ sentenceStep maxC acc sen, fitsOrWord maxC x := by
  intro x hx
  rw [sentenceStep] at hx
  by_cases hle : sen.length ≤ maxC
  · rw [if_pos hle] at hx
    rcases List.mem_append.1 hx with hx1 | hx2
    · exact hacc x hx1
    · rcases List.mem_singleton.1 hx2 with rfl
      exact Or.inl (le_trans (trimJs_length_le sen) hle)
  · rw [if_neg hle] at hx
    rcases List.mem_append.1 hx with hx1 | hx2
    · exact hacc x hx1
    · exact packWords_invariant maxC (splitOnSpaceChar sen)
        (splitOnSpaceChar_no_space sen) x hx2

theorem sentencesFoldl_invariant (maxC : Nat) (sentences : List (List Char)) :
    ∀ acc, (∀ x ∈ acc, fitsOrWord maxC x) →
      ∀ s ∈ sentences.foldl (sentenceStep maxC) acc, fitsOrWord maxC s := by
  induction sentences with
  | nil => intro acc hacc; exact hacc
  | cons sen rest ih =>
    intro acc hacc s hs
    simp only [List.foldl_cons] at hs
    exact ih (sentenceStep maxC acc sen) (sentenceStep_invariant maxC acc sen hacc) s hs

theorem segmentsOfSentences_invariant (maxC : Nat) (sentences : List (List Char)) :
    ∀ s ∈ segmentsOfSentences maxC sentences, fitsOrWord maxC s := by
  rw [segmentsOfSentences]
  exact sentencesFoldl_invariant maxC sentences [] (by simp)

/-- C4 amended: every caption segment either has at most `maxCharsPerSegment`
characters, or is a single space-free word longer than the limit (the greedy
packer keeps words whole and only over-long single words escape the bound). -/
theorem caption_segment_length_amended (narration : List Char) :
    ∀ s ∈ segmentsOf maxCharsPerSegment (sanitizeCaption narration),
      s.length ≤ maxCharsPerSegment ∨ ' ' ∉ s := by
  intro s hs
  rw [segmentsOf] at hs
  by_cases hnil : segmentsOfSentences maxCharsPerSegment
      (sentencesOf (sanitizeCaption narration)) = []
  · rw [if_pos hnil] at hs
    exact packWords_invariant maxCharsPerSegment _
      (splitOnSpaceChar_no_space (sanitizeCaption narration)) s hs
  · rw [if_neg hnil] at hs
    exact segmentsOfSentences_invariant maxCharsPerSegment _ s hs

/-- Witness for `caption_segment_length_amended` at a concrete narration and
segment. -/
theorem caption_segment_length_amended_witness :
    ("Check the horn.".toList).length ≤ maxCharsPerSegment ∨
      ' ' ∉ "Check the horn.".toList :=
  caption_segment_length_amended ("Check the horn.".toList)
    ("Check the horn.".toList) (by decide)

/-! ## Segment rendering with the no-captions fallback (route.ts 266–327) -/

/-- The captioned filter chain of route.ts line 261:
`vf = baseVf + "," + drawFilters.join(",")`; `drawPart` stands for the joined
drawtext filter text. -/
def captionedVf (baseVf drawPart : List Char) : List Char :=
  baseVf ++ ',' :: drawPart

theorem captionedVf_ne_baseVf (baseVf drawPart : List Char) :
    captionedVf baseVf drawPart ≠ baseVf := by
  intro h
  have hlen := congrArg List.length h
  simp only [captionedVf, List.length_append, List.length_cons] at hlen
  omega

/-- `tryRunSegment` (route.ts lines 305–327): run the segment with the given
filter chain; on failure, if captions are in use and the chain differs from
`baseVf`, retry once with `baseVf` and propagate that second outcome;
otherwise propagate the original error.  `run` maps a filter chain to the
outcome of `runSegment` with that chain. -/
def tryRunSegment {E : Type} (useCaptions : Bool) (baseVf : List Char)
    (run : List Char → Except E Unit) (filterChain : List Char) : Except E Unit :=
  match run filterChain with
  | .ok _ => .ok ()
  | .error e =>
    if useCaptions = true ∧ filterChain ≠ baseVf then run baseVf
    else .error e

/-- C5: with captions enabled, when the captioned chain fails the builder
automatically retries with the caption-free chain `baseVf`: success of the
caption-free render yields a successful segment, its failure propagates (and
only then), with the caption-free render's own error. -/
theorem tryRunSegment_fallback {E : Type} (run : List Char → Except E Unit)
    (baseVf drawPart : List Char) (e : E)
    (hfail : run (captionedVf baseVf drawPart) = .error e) :
    (run baseVf = .ok () →
      tryRunSegment true baseVf run (captionedVf baseVf drawPart) = .ok ()) ∧
    (∀ e2, run baseVf = .error e2 →
      tryRunSegment true baseVf run (captionedVf baseVf drawPart) = .error e2) ∧
    (∀ r, tryRunSegment true baseVf run (captionedVf baseVf drawPart) = .error r →
      run baseVf = .error r) := by
  have hrun : tryRunSegment true baseVf run (captionedVf baseVf drawPart) = run baseVf := by
    simp only [tryRunSegment, hfail]
    rw [if_pos ⟨trivial, captionedVf_ne_baseVf baseVf drawPart⟩]
  refine ⟨?_, ?_, ?_⟩
  · intro hok
    rw [hrun, hok]
  · intro e2 herr
    rw [hrun, herr]
  · intro r hr
    rw [hrun] at hr
    exact hr

/-- Witness for `tryRunSegment_fallback`: a render oracle that fails on the
captioned chain and succeeds on the caption-free chain yields a successful
captionless segment. -/
theorem tryRunSegment_fallback_witness :
    tryRunSegment true ("base".toList)
        (fun s => if s = "base".toList then Except.ok () else Except.error (3 : Nat))
        (captionedVf ("base".toList) ("draw".toList)) = .ok () :=
  (tryRunSegment_fallback
      (fun s => if s = "base".toList then Except.ok () else Except.error (3 : Nat))
      ("base".toList) ("draw".toList) 3 (by rfl)).1 (by rfl)

/-! ## Bounded-concurrency pool (useVideoGeneration.ts lines 27–45) -/

/-- State of `runWithConcurrency`: the shared `nextIndex` cursor, the
pre-sized result array (`none` = not yet written), and each worker's
currently awaited index (`none` = between iterations). -/
structure PoolState (R : Type) where
  next : Nat
  results : List (Option R)
  workers : List (Option Nat)

/-- Initial pool state of `runWithConcurrency`: `nextIndex = 0`,
`results = new Array(n)`, and `min(concurrency, n)` idle workers
(useVideoGeneration.ts lines 32–42). -/
def initPool (R : Type) (concurrency n : Nat) : PoolState R :=
  ⟨0, List.replicate n none, List.replicate (min concurrency n) none⟩

/-- One scheduler step for worker `w`, with `tasks` the list of per-item task
outcomes.  An idle worker atomically checks `nextIndex < items.length` and
claims `i = nextIndex++` (the check and increment have no await between them,
so they are a single event-loop step); a worker holding `i` completes its
await and writes `results[i] = fn(items[i], i)`. -/
def poolStep (R : Type) (tasks : List R) (s : PoolState R) (w : Nat) : PoolState R :=
  if w < s.workers.length then
    match s.workers.getD w none with
    | some i => ⟨s.next, s.results.set i tasks[i]?, s.workers.set w none⟩
    | none =>
      if s.next < s.results.length then
        ⟨s.next + 1, s.results, s.workers.set w (some s.next)⟩
      else s
  else s

/-- A full pool run under an arbitrary interleaving `sched` of worker
steps. -/
def runPool (R : Type) (tasks : List R) (sched : List Nat) (s : PoolState R) : PoolState R :=
  sched.foldl (poolStep R tasks) s

/-- The pool finished: every result slot has been written. -/
def poolComplete {R : Type} (s : PoolState R) : Prop :=
  (s.results.all fun o => o.isSome) = true

/-- The pool invariant: the result array keeps its size, and a slot is either
still empty or holds exactly its own task's outcome. -/
def poolInv {R : Type} (tasks : List R) (s : PoolState R) : Prop :=
  s.results.length = tasks.length ∧
    ∀ j, j < s.results.length →
      s.results[j]? = some none ∨ s.results[j]? = some tasks[j]?

theorem poolStep_inv {R : Type} (tasks : List R) (s : PoolState R) (w : Nat)
    (h : poolInv tasks s) : poolInv tasks (poolStep R tasks s w) := by
  rw [poolStep]
  by_cases hw : w < s.workers.length
  · rw [if_pos hw]
    match hold : s.workers.getD w none with
    | some i =>
      refine ⟨by simpa using h.1, ?_⟩
      intro j hj
      simp only [List.length_set] at hj
      rw [List.getElem?_set]
      by_cases hij : i = j
      · subst hij
        rw [if_pos rfl, if_pos hj]
        right
        rfl
      · rw [if_neg hij]
        exact h.2 j hj
    | none =>
      by_cases hn : s.next < s.results.length
      · rw [if_pos hn]
        exact h
      · rw [if_neg hn]
        exact h
  · rw [if_neg hw]
    exact h

theorem runPool_inv {R : Type} (tasks : List R) (sched : List Nat) :
    ∀ s, poolInv tasks s → poolInv tasks (runPool R tasks sched s) := by
  induction sched with
  | nil => intro s h; exact h
  | cons w rest ih =>
    intro s h
    simp only [runPool, List.foldl_cons] at ih ⊢
    exact ih (poolStep R tasks s w) (poolStep_inv tasks s w h)

theorem initPool_inv {R : Type} (tasks : List R) (concurrency : Nat) :
    poolInv tasks (initPool R concurrency tasks.length) := by
  refine ⟨by simp [initPool], ?_⟩
  intro j hj
  simp only [initPool, List.length_replicate] at hj
  left
  simp [initPool, List.getElem?_replicate, hj]

theorem poolInv_complete_result {R : Type} (tasks : List R) (s : PoolState R)
    (hinv : poolInv tasks s) (hdone : poolComplete s) :
    s.results = tasks.map some := by
  apply List.ext_getElem?
  intro j
  by_cases hj : j < s.results.length
  · rcases hinv.2 j hj with hnone | htask
    · exfalso
      have hj2 := List.getElem?_eq_getElem hj
      rw [hj2] at hnone
      have helem : s.results[j] = none := Option.some.inj hnone
      have hmem : s.results[j] ∈ s.results := List.getElem_mem hj
      have hsome := List.all_eq_true.1 hdone _ hmem
      rw [helem] at hsome
      simp at hsome
    · rw [htask, List.getElem?_map]
      have hjt : j < tasks.length := by
        rw [hinv.1] at hj
        exact hj
      rw [List.getElem?_eq_getElem hjt]
      rfl
  · have h1 : s.results[j]? = none := List.getElem?_eq_none (le_of_not_lt hj)
    have h2 : (tasks.map some)[j]? = none := by
      apply List.getElem?_eq_none
      rw [List.length_map, ← hinv.1]
      exact le_of_not_lt hj
    rw [h1, h2]

/-- C6: for every item list, every concurrency bound ≥ 1 and every per-item
task outcome, a completed pool run under any scheduling of worker steps
produces exactly the sequential map of the task over the items in input
order — slot `i` holds the outcome for item `i` regardless of completion
order. -/
theorem runWithConcurrency_ordered {A R : Type} (items : List A) (f : A → Nat → R)
    (concurrency : Nat) (_hconc : 1 ≤ concurrency) (sched : List Nat)
    (hdone : poolComplete (runPool R (items.mapIdx fun i a => f a i) sched
      (initPool R concurrency items.length))) :
    (runPool R (items.mapIdx fun i a => f a i) sched
        (initPool R concurrency items.length)).results =
      (items.mapIdx fun i a => f a i).map some := by
  have hlen : (items.mapIdx fun i a => f a i).length = items.length := List.length_mapIdx
  have hinit : poolInv (items.mapIdx fun i a => f a i)
      (initPool R concurrency items.length) := by
    rw [← hlen]
    exact initPool_inv _ concurrency
  exact poolInv_complete_result _ _ (runPool_inv _ sched _ hinit) hdone

/-- Witness for `runWithConcurrency_ordered`: three items, two workers, an
interleaved schedule; the results come out in input order. -/
theorem runWithConcurrency_ordered_witness :
    (runPool ℕ (([10, 20, 30] : List ℕ).mapIdx fun i a => (fun (a i : ℕ) => a + i) a i)
        [0, 1, 0, 1, 0, 0] (initPool ℕ 2 ([10, 20, 30] : List ℕ).length)).results =
      (([10, 20, 30] : List ℕ).mapIdx fun i a => (fun (a i : ℕ) => a + i) a i).map some :=
  runWithConcurrency_ordered ([10, 20, 30] : List ℕ) (fun a i => a + i) 2 (by decide)
    [0, 1, 0, 1, 0, 0] (by unfold poolComplete; decide)

/-! ## Single-scene regeneration (useVideoGeneration.ts lines 162–221) -/

/-- Observable artifact events of `regenerateScene`, in the order they
happen: the new output blob is produced (the `assembleVideo` await resolves,
line 203), the previous object URL is revoked (line 204), the new object URL
is installed (line 205). -/
inductive RegenEvent (B U : Type) where
  | produced : B → RegenEvent B U
  | revoke : U → RegenEvent B U
  | install : B → RegenEvent B U

/-- `regenerateScene` (useVideoGeneration.ts lines 187–207), restricted to
its asset and artifact effects: generate a single asset for `sceneIndex`,
splice it into a copy of `currentAssets` (`[...currentAssets]` followed by
`newAssets[sceneIndex] = asset`, modelled by `List.set`, which leaves the
input list untouched), assemble the updated list, and only after a
successful assembly revoke the previous blob URL and install the new one.
Both failure paths return before any artifact event. -/
def regenerateScene (E A B U : Type) (generate : Except E A)
    (assemble : List A → Except E B) (sceneIndex : Nat) (currentAssets : List A)
    (previousBlobUrl : Option U) :
    Except E (List A × B) × List (RegenEvent B U) :=
  match generate with
  | .error e => (.error e, [])
  | .ok asset =>
    match assemble (currentAssets.set sceneIndex asset) with
    | .error e => (.error e, [])
    | .ok blob =>
      (.ok (currentAssets.set sceneIndex asset, blob),
        RegenEvent.produced blob ::
          ((previousBlobUrl.map (fun u => RegenEvent.revoke u)).toList ++
            [RegenEvent.install blob]))

/-- C7: regenerating scene `k` of an `N`-asset batch only replaces position
`k` — every other position of the updated list is the same entry as in the
input list, which itself is unchanged — and the previous output artifact is
revoked only in a run whose first event is the successful production of the
new blob, so a failed regeneration (of either stage) performs no revocation
and leaves the prior result usable. -/
theorem regenerateScene_frame {E A B U : Type} (generate : Except E A)
    (assemble : List A → Except E B) (k : Nat) (cur : List A) (prev : Option U)
    (hk : k < cur.length) :
    (∀ asset blob, generate = .ok asset → assemble (cur.set k asset) = .ok blob →
      (regenerateScene E A B U generate assemble k cur prev).1 =
          .ok (cur.set k asset, blob) ∧
        (cur.set k asset).length = cur.length ∧
        (cur.set k asset)[k]? = some asset ∧
        (∀ j, j ≠ k → (cur.set k asset)[j]? = cur[j]?) ∧
        (regenerateScene E A B U generate assemble k cur prev).2 =
          RegenEvent.produced blob ::
            ((prev.map (fun u => RegenEvent.revoke u)).toList ++
              [RegenEvent.install blob])) ∧
    (∀ e, (regenerateScene E A B U generate assemble k cur prev).1 = .error e →
      (regenerateScene E A B U generate assemble k cur prev).2 = []) ∧
    (∀ u, RegenEvent.revoke u ∈ (regenerateScene E A B U generate assemble k cur prev).2 →
      ∃ asset blob, generate = .ok asset ∧ assemble (cur.set k asset) = .ok blob ∧
        (regenerateScene E A B U generate assemble k cur prev).2[0]? =
          some (RegenEvent.produced blob)) := by
  refine ⟨?_, ?_, ?_⟩
  · intro asset blob hgen hasm
    simp only [regenerateScene, hgen, hasm]
    refine ⟨trivial, List.length_set cur k asset, List.getElem?_set_self hk, ?_, trivial⟩
    intro j hj
    exact List.getElem?_set_ne (fun h => hj h.symm)
  · intro e herr
    cases hgen : generate with
    | error e2 => simp [regenerateScene, hgen]
    | ok asset =>
      cases hasm : assemble (cur.set k asset) with
      | error e2 => simp [regenerateScene, hgen, hasm]
      | ok blob =>
        simp only [regenerateScene, hgen, hasm] at herr
        exact absurd herr (by simp)
  · intro u hu
    cases hgen : generate with
    | error e2 =>
      simp only [regenerateScene, hgen] at hu
      simp at hu
    | ok asset =>
      cases hasm : assemble (cur.set k asset) with
      | error e2 =>
        simp only [regenerateScene, hgen, hasm] at hu
        simp at hu
      | ok blob =>
        refine ⟨asset, blob, rfl, hasm, ?_⟩
        simp only [regenerateScene, hasm]
        simp

/-- Witness for `regenerateScene_frame`: regenerating index 1 of a 3-asset
list; only slot 1 changes and the events open with the new blob's
production. -/
theorem regenerateScene_frame_witness :
    (regenerateScene Unit ℕ ℕ ℕ (.ok 99) (fun l => .ok l.sum) 1 [1, 2, 3] (some 7)).1 =
        .ok (([1, 2, 3] : List ℕ).set 1 99, 103) ∧
      (([1, 2, 3] : List ℕ).set 1 99).length = ([1, 2, 3] : List ℕ).length ∧
      (([1, 2, 3] : List ℕ).set 1 99)[1]? = some 99 ∧
      (∀ j, j ≠ 1 → (([1, 2, 3] : List ℕ).set 1 99)[j]? = ([1, 2, 3] : List ℕ)[j]?) ∧
      (regenerateScene Unit ℕ ℕ ℕ (.ok 99) (fun l => .ok l.sum) 1 [1, 2, 3] (some 7)).2 =
        RegenEvent.produced 103 ::
          (((some 7).map (fun u => RegenEvent.revoke u)).toList ++
            [RegenEvent.install 103]) :=
  (regenerateScene_frame (.ok 99) (fun l => .ok l.sum) 1 [1, 2, 3] (some 7)
    (by decide)).1 99 103 rfl (by rfl)

/-! ## Retry with exponential backoff (src/lib/retry.ts) -/

/-- `DEFAULT_ATTEMPTS` (retry.ts). -/
def DEFAULT_ATTEMPTS : Nat := 3

/-- `INITIAL_MS` (retry.ts). -/
def INITIAL_MS : Nat := 1000

/-- The retry loop of `withRetry` (retry.ts): `outs i` is the outcome of the
`i`-th invocation of `fn`; `r` is the number of attempts remaining after the
current one.  Returns the final outcome, the number of invocations made, and
the list of back-off delays slept (each `initialMs * 2 ^ i` after the failed
attempt `i`).  The error of the last attempt is re-raised unchanged. -/
def retryGo {E T : Type} (outs : Nat → Except E T) (ms : Nat) :
    Nat → Nat → Except E T × Nat × List Nat
  | i, 0 => (outs i, 1, [])
  | i, r + 1 =>
    match outs i with
    | .ok v => (.ok v, 1, [])
    | .error _ =>
      let p := retryGo outs ms (i + 1) r
      (p.1, p.2.1 + 1, ms * 2 ^ i :: p.2.2)

/-- `withRetry(fn, { attempts, initialMs })` (retry.ts lines 38–56) for
`attempts ≥ 1`, over the outcome sequence `outs`. -/
def withRetry {E T : Type} (outs : Nat → Except E T) (attempts initialMs : Nat) :
    Except E T × Nat × List Nat :=
  retryGo outs initialMs 0 (attempts - 1)

/-- `withRetry(fn)` with its defaults (`attempts = 3`, `initialMs = 1000`). -/
def withRetryDefault {E T : Type} (outs : Nat → Except E T) : Except E T × Nat × List Nat :=
  withRetry outs DEFAULT_ATTEMPTS INITIAL_MS

theorem retryGo_calls_le {E T : Type} (outs : Nat → Except E T) (ms : Nat) :
    ∀ r i, (retryGo outs ms i r).2.1 ≤ r + 1 := by
  intro r
  induction r with
  | zero => intro i; simp [retryGo]
  | succ r ih =>
    intro i
    rw [retryGo]
    match outs i with
    | .ok v => simp
    | .error e =>
      simp only
      have := ih (i + 1)
      omega

theorem retryGo_first_success {E T : Type} (outs : Nat → Except E T) (ms : Nat) :
    ∀ r i j v, j ≤ r → outs (i + j) = .ok v →
      (∀ l, l < j → ∃ e, outs (i + l) = .error e) →
      retryGo outs ms i r =
        (.ok v, j + 1, (List.range j).map (fun l => ms * 2 ^ (i + l))) := by
  intro r
  induction r with
  | zero =>
    intro i j v hj hok _
    interval_cases j
    simp only [Nat.add_zero] at hok
    simp [retryGo, hok]
  | succ r ih =>
    intro i j v hj hok hfails
    match j with
    | 0 =>
      simp only [Nat.add_zero] at hok
      rw [retryGo, hok]
      simp
    | j + 1 =>
      obtain ⟨e, he⟩ := hfails 0 (by omega)
      simp only [Nat.add_zero] at he
      rw [retryGo, he]
      have hrec := ih (i + 1) j v (by omega)
        (by rw [show i + 1 + j = i + (j + 1) by omega]; exact hok)
        (by
          intro l hl
          obtain ⟨e2, he2⟩ := hfails (l + 1) (by omega)
          exact ⟨e2, by rw [show i + 1 + l = i + (l + 1) by omega]; exact he2⟩)
      simp only [hrec, List.range_succ_eq_map, List.map_cons, List.map_map,
        Prod.mk.injEq, List.cons.injEq, Nat.add_zero]
      refine ⟨trivial, trivial, trivial, ?_⟩
      apply List.map_congr_left
      intro l _
      simp only [Function.comp_apply]
      congr 1
      congr 1
      omega

theorem retryGo_all_fail {E T : Type} (outs : Nat → Except E T) (ms : Nat) :
    ∀ r i, (∀ l, l ≤ r → ∃ e, outs (i + l) = .error e) →
      retryGo outs ms i r =
        (outs (i + r), r + 1, (List.range r).map (fun l => ms * 2 ^ (i + l))) := by
  intro r
  induction r with
  | zero =>
    intro i _
    simp [retryGo]
  | succ r ih =>
    intro i hfails
    obtain ⟨e, he⟩ := hfails 0 (by omega)
    simp only [Nat.add_zero] at he
    rw [retryGo, he]
    have hrec := ih (i + 1)
      (by
        intro l hl
        obtain ⟨e2, he2⟩ := hfails (l + 1) (by omega)
        exact ⟨e2, by rw [show i + 1 + l = i + (l + 1) by omega]; exact he2⟩)
    simp only [hrec, List.range_succ_eq_map, List.map_cons, List.map_map,
      Prod.mk.injEq, List.cons.injEq, Nat.add_zero]
    refine ⟨by rw [show i + 1 + r = i + (r + 1) by omega], trivial, trivial, ?_⟩
    apply List.map_congr_left
    intro l _
    simp only [Function.comp_apply]
    congr 1
    congr 1
    omega

/-- C8: `withRetry` makes at most `attempts` invocations (defaults
`attempts = 3`, `initialMs = 1000`); it returns the first successful outcome
with no further invocations, sleeping `initialMs * 2 ^ l` after each failed
attempt `l`; and when every attempt fails it makes exactly `attempts`
invocations and re-raises the final attempt's error unchanged. -/
theorem withRetry_spec {E T : Type} (outs : Nat → Except E T)
    (attempts initialMs : Nat) (hat : 1 ≤ attempts) :
    (withRetryDefault outs = withRetry outs 3 1000) ∧
    (withRetry outs attempts initialMs).2.1 ≤ attempts ∧
    (∀ j v, j < attempts → outs j = .ok v →
      (∀ l, l < j → ∃ e, outs l = .error e) →
      withRetry outs attempts initialMs =
        (.ok v, j + 1, (List.range j).map (fun l => initialMs * 2 ^ l))) ∧
    ((∀ l, l < attempts → ∃ e, outs l = .error e) →
      withRetry outs attempts initialMs =
        (outs (attempts - 1), attempts,
          (List.range (attempts - 1)).map (fun l => initialMs * 2 ^ l))) := by
  refine ⟨rfl, ?_, ?_, ?_⟩
  · have := retryGo_calls_le outs initialMs (attempts - 1) 0
    rw [withRetry]
    omega
  · intro j v hj hok hfails
    rw [withRetry]
    have := retryGo_first_success outs initialMs (attempts - 1) 0 j v (by omega)
      (by simpa using hok) (by simpa using hfails)
    simpa using this
  · intro hfails
    rw [withRetry]
    have := retryGo_all_fail outs initialMs (attempts - 1) 0
      (by
        intro l hl
        exact (by simpa using hfails l (by omega)))
    have h2 : attempts - 1 + 1 = attempts := by omega
    simpa [h2] using this

/-- Witness for `withRetry_spec`: with the defaults and an outcome sequence
failing on attempts 0 and 1 and succeeding on attempt 2, `withRetry` makes 3
calls, sleeps 1000 ms then 2000 ms, and returns the success. -/
theorem withRetry_spec_witness :
    withRetry (fun i => if i < 2 then Except.error i else Except.ok (i * 10))
        DEFAULT_ATTEMPTS INITIAL_MS =
      (.ok 20, 3, [1000, 2000]) := by
  have h := (withRetry_spec (fun i => if i < 2 then Except.error i else Except.ok (i * 10))
      DEFAULT_ATTEMPTS INITIAL_MS (by decide)).2.2.1 2 20 (by decide) (by rfl)
      (by
        intro l hl
        exact ⟨l, by simp [hl]⟩)
  rw [h]
  rfl

/-! ## Timeout wrapper (src/lib/timeout.ts)

`withTimeout(promise, ms, message)` races a `setTimeout(ms)` rejection
against the wrapped promise.  We model the race by the order in which the two
callbacks run on the event loop: `timerFires` is the timeout callback,
`promiseSettles` is the `.then`/`.catch` handler (which first calls
`clearTimeout` and then settles the wrapper; settling an already-settled
promise is a no-op).  Wrapper rejection reasons are `Sum.inl message` for the
timeout's own `new Error(message)` and `Sum.inr r` for a propagated inner
rejection reason `r`, keeping the two provably distinct.  The state also
records whether the underlying operation itself settled: `withTimeout` never
cancels it. -/

inductive TimeoutEvent where
  | timerFires
  | promiseSettles

/-- The wrapper's view of an inner outcome: values pass through unchanged,
inner rejection reasons are tagged `Sum.inr`. -/
def liftOutcome {R T : Type} (o : Except R T) : Except (Sum String R) T :=
  match o with
  | .ok v => .ok v
  | .error r => .error (.inr r)

/-- The wrapper promise cell, the pending-timer flag, and the underlying
operation's own settlement record. -/
structure TimeoutState (R T : Type) where
  settled : Option (Except (Sum String R) T)
  timerActive : Bool
  opSettled : Option (Except R T)

def timeoutInit (R T : Type) : TimeoutState R T :=
  ⟨none, true, none⟩

/-- One event-loop callback of `withTimeout` (timeout.ts lines 11–22). -/
def timeoutStep {R T : Type} (msg : String) (outcome : Except R T)
    (s : TimeoutState R T) : TimeoutEvent → TimeoutState R T
  | .timerFires =>
    if s.timerActive then
      match s.settled with
      | some r => { s with settled := some r }
      | none => { s with settled := some (.error (.inl msg)) }
    else s
  | .promiseSettles =>
    { settled :=
        match s.settled with
        | some r => some r
        | none => some (liftOutcome outcome)
      timerActive := false
      opSettled := some outcome }

/-- A `withTimeout` execution under a given ordering of the two callbacks. -/
def runTimeout {R T : Type} (msg : String) (outcome : Except R T)
    (evs : List TimeoutEvent) : TimeoutState R T :=
  evs.foldl (timeoutStep msg outcome) (timeoutInit R T)

/-- C9: if the deadline fires before the wrapped promise settles (including
when it never settles), `withTimeout` rejects with the distinct timeout error
carrying the configured message — while the underlying operation still runs
to completion with its own outcome; otherwise the wrapper adopts the wrapped
promise's resolution value or rejection reason unchanged, and that propagated
outcome is never the timeout error. -/
theorem withTimeout_race {R T : Type} (msg : String) (outcome : Except R T) :
    (runTimeout msg outcome [.timerFires, .promiseSettles]).settled =
        some (.error (.inl msg)) ∧
    (runTimeout msg outcome [.timerFires, .promiseSettles]).opSettled = some outcome ∧
    (runTimeout msg outcome [.timerFires]).settled = some (.error (.inl msg)) ∧
    (runTimeout msg outcome [.promiseSettles, .timerFires]).settled =
        some (liftOutcome outcome) ∧
    (runTimeout msg outcome [.promiseSettles]).settled = some (liftOutcome outcome) ∧
    liftOutcome outcome ≠ .error (.inl msg) := by
  refine ⟨rfl, rfl, rfl, rfl, rfl, ?_⟩
  match outcome with
  | .ok v => simp [liftOutcome]
  | .error r => simp [liftOutcome]

/-! ## The assemble-video request handler (route.ts lines 82–379)

The handler is modelled as a function from an abstract request to a response
together with the ordered list of filesystem operations it performs.  The
render and concatenation subprocesses are oracles (`render i` = scene `i`'s
`tryRunSegment` succeeds after its fallback; `concatOk` = the concat step
finishes within its deadline). -/

/-- JavaScript `parseInt(s, 10)`: skip leading whitespace, an optional sign,
then take the longest digit prefix; no digits means `NaN`, modelled as
`none`. -/
def isDigitChar (c : Char) : Bool :=
  '0' ≤ c && c ≤ '9'

def digitsVal (ds : List Char) : Nat :=
  ds.foldl (fun acc c => acc * 10 + (c.toNat - '0'.toNat)) 0

def parseIntJs (cs : List Char) : Option Int :=
  let cs2 := cs.dropWhile jsSpace
  let signed : Bool × List Char :=
    match cs2 with
    | '-' :: rest => (true, rest)
    | '+' :: rest => (false, rest)
    | _ => (false, cs2)
  let ds := signed.2.takeWhile isDigitChar
  if ds = [] then none
  else some (if signed.1 then -(digitsVal ds : Int) else (digitsVal ds : Int))

/-- The body-size guard of route.ts lines 83–89:
`contentLength && parseInt(contentLength, 10) > MAX_ASSEMBLE_BODY_BYTES`
(`null` and the empty string are falsy; a `NaN` comparison is false). -/
def sizeRejected (contentLength : Option (List Char)) : Bool :=
  match contentLength with
  | none => false
  | some s =>
    !s.isEmpty &&
      match parseIntJs s with
      | some n => decide ((MAX_ASSEMBLE_BODY_BYTES : Int) < n)
      | none => false

/-- One scene of the parsed request body (schemas.ts lines 83–97). -/
structure RawScene where
  imageBase64 : Option (List Char)
  videoBase64 : Option (List Char)
  audioBase64 : List Char
  durationSeconds : ℚ
  narration : Option (List Char)

/-- zod `sceneAssetSchema`: present payloads are non-empty strings, audio is
required and non-empty, the duration is positive, and exactly one of
image/video is present. -/
def sceneValid (s : RawScene) : Bool :=
  (match s.imageBase64 with | some x => !x.isEmpty | none => true) &&
  (match s.videoBase64 with | some x => !x.isEmpty | none => true) &&
  !s.audioBase64.isEmpty &&
  decide (0 < s.durationSeconds) &&
  (s.imageBase64.isSome || s.videoBase64.isSome) &&
  !(s.imageBase64.isSome && s.videoBase64.isSome)

/-- zod `assembleVideoBodySchema`: between 1 and `MAX_SCENES` scenes, each
valid. -/
def bodyValid (scenes : List RawScene) : Bool :=
  decide (1 ≤ scenes.length) && decide (scenes.length ≤ MAX_SCENES) &&
    scenes.all sceneValid

/-- Files of the ephemeral workspace directory. -/
inductive ModelFile where
  | audioFile (i : Nat)
  | imageFile (i : Nat)
  | videoFile (i : Nat)
  | segmentFile (i : Nat)
  | listFile
  | outputFile
deriving DecidableEq

/-- Filesystem operations performed by the handler. -/
inductive FsOp where
  | mkdirTmp
  | writeFile (f : ModelFile)
  | unlinkFile (f : ModelFile)
  | rmdirTmp
deriving DecidableEq

/-- The `cleanup` closure of route.ts lines 94–103: unlink every file in the
directory, then remove it. -/
def cleanupOps (files : List ModelFile) : List FsOp :=
  files.map (fun f => FsOp.unlinkFile f) ++ [FsOp.rmdirTmp]

/-- The handler's view of a request: the Content-Length header, the actual
body size in bytes (never consulted by the handler), and the parse outcome of
`request.json()` (`none` = the body is not valid JSON and the await throws;
otherwise the raw scenes and the captions flag). -/
structure AssembleRequest where
  contentLength : Option (List Char)
  bodyBytes : Nat
  json : Option (List RawScene × Bool)

/-- The handler's response, by status class. -/
inductive AssembleResponse where
  | tooLarge
  | badRequest
  | failure
  | ok
deriving DecidableEq

/-- Scene truthiness for the in-loop checks (route.ts lines 134–136):
`!!imageBase64` is true only for a present non-empty string. -/
def hasPayload (p : Option (List Char)) : Bool :=
  match p with
  | some x => !x.isEmpty
  | none => false

/-- The per-scene loop of route.ts lines 132–340: re-check the scene shape
(redundant after zod), write the audio payload, write the visual payload, and
render the segment via `tryRunSegment` (a successful render leaves
`segment-i.mp4` in the workspace).  Returns an early-exit response if any,
the workspace contents, and the operation trace so far. -/
def sceneLoop (render : Nat → Bool) :
    Nat → List RawScene → List ModelFile → List FsOp →
    Option AssembleResponse × List ModelFile × List FsOp
  | _, [], files, ops => (none, files, ops)
  | i, s :: rest, files, ops =>
    let hasImage := hasPayload s.imageBase64
    let hasVideo := hasPayload s.videoBase64
    if ((!hasImage && !hasVideo) || s.audioBase64.isEmpty ||
        decide (s.durationSeconds ≤ 0)) = true then
      (some .badRequest, files, ops)
    else if (hasImage && hasVideo) = true then
      (some .badRequest, files, ops)
    else
      let files1 := files ++ [ModelFile.audioFile i]
      let ops1 := ops ++ [FsOp.writeFile (ModelFile.audioFile i)]
      let visual := if hasImage then ModelFile.imageFile i else ModelFile.videoFile i
      let files2 := files1 ++ [visual]
      let ops2 := ops1 ++ [FsOp.writeFile visual]
      if render i then
        sceneLoop render (i + 1) rest (files2 ++ [ModelFile.segmentFile i]) ops2
      else
        (some .failure, files2, ops2)

/-- Everything after the body-size guard (route.ts lines 91–378): create the
temp directory, parse and validate the body, run the scene loop, write the
concat manifest, run the deadline-wrapped concatenation, and in every case
tear the workspace down via `cleanup` (the `finally`). -/
def handleBody (render : Nat → Bool) (concatOk : Bool) (req : AssembleRequest) :
    AssembleResponse × List FsOp :=
  match req.json with
  | none => (.failure, FsOp.mkdirTmp :: cleanupOps [])
  | some (scenes, _captions) =>
    if bodyValid scenes then
      match sceneLoop render 0 scenes [] [FsOp.mkdirTmp] with
      | (some resp, files, ops) => (resp, ops ++ cleanupOps files)
      | (none, files, ops) =>
        let ops2 := ops ++ [FsOp.writeFile ModelFile.listFile]
        if concatOk then
          (.ok, ops2 ++ cleanupOps (files ++ [ModelFile.listFile, ModelFile.outputFile]))
        else
          (.failure, ops2 ++ cleanupOps (files ++ [ModelFile.listFile]))
    else (.badRequest, FsOp.mkdirTmp :: cleanupOps [])

/-- `handleAssembleVideo` (route.ts lines 82–379): the Content-Length guard
answers 413 before anything else; otherwise the body phase runs. -/
def handleAssembleVideo (render : Nat → Bool) (concatOk : Bool)
    (req : AssembleRequest) : AssembleResponse × List FsOp :=
  if sizeRejected req.contentLength then (.tooLarge, [])
  else handleBody render concatOk req

/-! ## The content-length guard (C10) and the validation/filesystem order (C2) -/

theorem sizeRejected_iff (cl : Option (List Char)) :
    sizeRejected cl = true ↔
      ∃ s n, cl = some s ∧ parseIntJs s = some n ∧
        (MAX_ASSEMBLE_BODY_BYTES : Int) < n := by
  cases cl with
  | none =>
    simp only [sizeRejected]
    constructor
    · intro h; cases h
    · rintro ⟨s, n, hs, _, _⟩; cases hs
  | some s =>
    simp only [sizeRejected]
    constructor
    · intro h
      cases hp : parseIntJs s with
      | none =>
        rw [hp] at h
        simp at h
      | some n =>
        rw [hp] at h
        simp only [Bool.and_eq_true, decide_eq_true_eq] at h
        exact ⟨s, n, rfl, hp, h.2⟩
    · rintro ⟨s2, n, hs2, hp, hlt⟩
      injection hs2 with hs2
      subst hs2
      by_cases hnil : s = []
      · subst hnil
        rw [show parseIntJs [] = none from rfl] at hp
        cases hp
      · have hne : s.isEmpty = false := by
          cases s with
          | nil => exact absurd rfl hnil
          | cons c cs => rfl
        rw [hp]
        simp [hne, hlt]

theorem sceneLoop_ne_tooLarge (render : Nat → Bool) :
    ∀ scenes i files ops,
      (sceneLoop render i scenes files ops).1 ≠ some AssembleResponse.tooLarge := by
  intro scenes
  induction scenes with
  | nil =>
    intro i files ops h
    simp [sceneLoop] at h
  | cons s rest ih =>
    intro i files ops h
    simp only [sceneLoop] at h
    by_cases hc1 : ((!hasPayload s.imageBase64 && !hasPayload s.videoBase64) ||
        s.audioBase64.isEmpty || decide (s.durationSeconds ≤ 0)) = true
    · rw [if_pos hc1] at h
      exact absurd h (by simp)
    · rw [if_neg hc1] at h
      by_cases hc2 : (hasPayload s.imageBase64 && hasPayload s.videoBase64) = true
      · rw [if_pos hc2] at h
        exact absurd h (by simp)
      · rw [if_neg hc2] at h
        by_cases hr : render i = true
        · rw [if_pos hr] at h
          exact ih (i + 1) _ _ h
        · rw [if_neg hr] at h
          exact absurd h (by simp)

theorem handleBody_ne_tooLarge (render : Nat → Bool) (concatOk : Bool)
    (req : AssembleRequest) :
    (handleBody render concatOk req).1 ≠ AssembleResponse.tooLarge := by
  cases hj : req.json with
  | none => simp [handleBody, hj]
  | some p =>
    obtain ⟨scenes, caps⟩ := p
    simp only [handleBody, hj]
    by_cases hv : bodyValid scenes = true
    · rw [if_pos hv]
      rcases hloop : sceneLoop render 0 scenes [] [FsOp.mkdirTmp] with ⟨o, files, ops⟩
      cases o with
      | some resp =>
        have hne := sceneLoop_ne_tooLarge render scenes 0 [] [FsOp.mkdirTmp]
        rw [hloop] at hne
        intro hcontra
        simp at hcontra
        subst hcontra
        exact hne rfl
      | none =>
        by_cases hcat : concatOk = true
        · simp [hcat]
        · simp [hcat]
    · rw [if_neg hv]
      simp

/-- C10: the 413 "Request body too large" rejection happens exactly when the
request carries a Content-Length header that `parseInt` reads as a value
above `MAX_ASSEMBLE_BODY_BYTES`; a request without the header is never
size-rejected and goes straight to the body phase (parsing and schema
validation); and the guard never consults the actual body size. -/
theorem contentLength_guard (render : Nat → Bool) (concatOk : Bool)
    (req : AssembleRequest) :
    ((handleAssembleVideo render concatOk req).1 = AssembleResponse.tooLarge ↔
      ∃ s n, req.contentLength = some s ∧ parseIntJs s = some n ∧
        (MAX_ASSEMBLE_BODY_BYTES : Int) < n) ∧
    (req.contentLength = none →
      handleAssembleVideo render concatOk req = handleBody render concatOk req) ∧
    (∀ b, handleAssembleVideo render concatOk
        ⟨req.contentLength, b, req.json⟩ = handleAssembleVideo render concatOk req) := by
  refine ⟨?_, ?_, ?_⟩
  · rw [handleAssembleVideo]
    by_cases hs : sizeRejected req.contentLength = true
    · rw [if_pos hs]
      constructor
      · intro _
        exact (sizeRejected_iff req.contentLength).1 hs
      · intro _
        rfl
    · rw [if_neg hs]
      constructor
      · intro h
        exact absurd h (handleBody_ne_tooLarge render concatOk req)
      · intro hex
        exact absurd ((sizeRejected_iff req.contentLength).2 hex) hs
  · intro hcl
    rw [handleAssembleVideo, hcl]
    rfl
  · intro b
    obtain ⟨cl, bb, js⟩ := req
    rfl

/-- Witness for `contentLength_guard`: a header of 52428801 bytes (one over
the 50 MB limit) is size-rejected, and a header-less request runs the body
phase. -/
theorem contentLength_guard_witness :
    (handleAssembleVideo (fun _ => true) true
        ⟨some ("52428801".toList), 0, some ([], true)⟩).1 = AssembleResponse.tooLarge ∧
      handleAssembleVideo (fun _ => true) true ⟨none, 0, none⟩ =
        handleBody (fun _ => true) true ⟨none, 0, none⟩ :=
  ⟨(contentLength_guard (fun _ => true) true
        ⟨some ("52428801".toList), 0, some ([], true)⟩).1.2
      ⟨"52428801".toList, 52428801, rfl, by decide, by decide⟩,
    (contentLength_guard (fun _ => true) true ⟨none, 0, none⟩).2.1 rfl⟩

/-- C2 counterexample: a request that fails schema validation (here: an empty
scene list, rejected by the `min(1)` bound) still causes a filesystem write —
the temp directory is created (route.ts lines 91–92) before the body is
parsed or validated, so "no temp directory is created for a request that
fails validation" is false. -/
theorem c2_validation_creates_tmpdir :
    (handleAssembleVideo (fun _ => true) true ⟨none, 0, some ([], true)⟩).1 =
        AssembleResponse.badRequest ∧
      FsOp.mkdirTmp ∈
        (handleAssembleVideo (fun _ => true) true ⟨none, 0, some ([], true)⟩).2 := by
  decide

/-- C2 amended: a request rejected by the Content-Length guard performs no
filesystem operation at all; a request that fails body parsing or schema
validation performs exactly the creation and removal of the (still empty)
temp directory — no file is ever created or written for it. -/
theorem c2_validation_fs_amended (render : Nat → Bool) (concatOk : Bool)
    (req : AssembleRequest) :
    (sizeRejected req.contentLength = true →
      handleAssembleVideo render concatOk req = (.tooLarge, [])) ∧
    (sizeRejected req.contentLength = false → req.json = none →
      handleAssembleVideo render concatOk req =
        (.failure, [FsOp.mkdirTmp, FsOp.rmdirTmp])) ∧
    (∀ scenes caps, sizeRejected req.contentLength = false →
      req.json = some (scenes, caps) → bodyValid scenes = false →
      handleAssembleVideo render concatOk req =
        (.badRequest, [FsOp.mkdirTmp, FsOp.rmdirTmp])) := by
  refine ⟨?_, ?_, ?_⟩
  · intro hs
    rw [handleAssembleVideo, if_pos hs]
  · intro hs hj
    rw [handleAssembleVideo, hs]
    simp [handleBody, hj, cleanupOps]
  · intro scenes caps hs hj hv
    rw [handleAssembleVideo, hs]
    simp [handleBody, hj, hv, cleanupOps]

/-- Witness for `c2_validation_fs_amended`: the empty-scene-list request is
rejected with exactly the directory's creation and removal in its trace. -/
theorem c2_validation_fs_amended_witness :
    handleAssembleVideo (fun _ => true) true ⟨none, 0, some ([], true)⟩ =
      (.badRequest, [FsOp.mkdirTmp, FsOp.rmdirTmp]) :=
  (c2_validation_fs_amended (fun _ => true) true ⟨none, 0, some ([], true)⟩).2.2
    [] true rfl rfl (by decide)

end STV
